import Mathlib

/-!
Verification of the shuttle launcher's search-and-aggregation core.

Strings are modelled as `List Char` (Rust `String`/`str`); byte indices of
ASCII delimiters coincide with the character indices used here.  Rust's
`char::to_lowercase`/`str::to_lowercase` are modelled per character by
`Char.toLower` (basic-latin lowering).  Machine integers (`i32`, `usize`)
are modelled as `Int`/`Nat`: the arithmetic in the program (`rem_euclid`
on list indices) stays far below any machine bound.
-/

namespace Shuttle

/-- One launchable entry (src/shuttle/mod.rs, `struct Item`). -/
structure Item where
  label : List Char
  value : List Char
  haystack : List Char
deriving DecidableEq

/-- Rust `str::to_lowercase`, per character. -/
def toLowerStr (s : List Char) : List Char := s.map Char.toLower

/-- Rust `str::contains(needle)`: `needle` occurs as a contiguous substring. -/
def containsSub (hay needle : List Char) : Bool :=
  needle.isPrefixOf hay ||
    match hay with
    | [] => false
    | _ :: t => containsSub t needle

/-- Helper for `splitWhitespace`: `acc` holds the reversed current token. -/
def splitWSAux : List Char → List Char → List (List Char)
  | acc, [] => if acc.isEmpty then [] else [acc.reverse]
  | acc, c :: cs =>
    if c.isWhitespace then
      if acc.isEmpty then splitWSAux [] cs
      else acc.reverse :: splitWSAux [] cs
    else splitWSAux (c :: acc) cs

/-- Rust `str::split_whitespace`: split on runs of whitespace, dropping
empty parts. -/
def splitWhitespace (l : List Char) : List (List Char) :=
  splitWSAux [] l

/-- `SimpleMatcher::matches` (src/shuttle/matchers/simple.rs): lower-case the
query, split it on whitespace, and keep the items whose haystack contains
every part. -/
def simple_matches (query : List Char) (items : List Item) : List Item :=
  let q := toLowerStr query
  let query_parts := splitWhitespace q
  items.filter (fun item => query_parts.all (fun part => containsSub item.haystack part))

/-- `FuzzyMatcher::matches` (src/shuttle/matchers/fuzzy.rs), parametric in the
underlying scorer `fm` (`fuzzy_matcher::FuzzyMatcher::fuzzy_match`, called as
`fm haystack query`): keep the items with a defined score paired with it,
then stable-sort ascending by the key `-score` (itertools `sorted_by_key`
uses the stable `Vec::sort_by_key`; `List.insertionSort` with a total
preorder computes exactly the stable sort) and drop the scores. -/
def fuzzy_matches (fm : List Char → List Char → Option Int) (query : List Char)
    (items : List Item) : List Item :=
  let pairs := items.filterMap (fun item => (fm item.haystack query).map (fun score => (score, item)))
  (List.insertionSort (fun a b : Int × Item => -a.1 ≤ -b.1) pairs).map Prod.snd

/-- GitHub repository record (src/shuttle/providers/github.rs). -/
structure Repository where
  full_name : List Char
  html_url : List Char
deriving DecidableEq

/-- `impl From<Repository> for Item` (src/shuttle/providers/github.rs). -/
def itemOfRepository (repo : Repository) : Item :=
  { label := repo.full_name
    haystack := repo.full_name
    value := repo.html_url }

/-- Jenkins job record (src/shuttle/providers/jenkins.rs). -/
structure Job where
  name : List Char
  url : List Char
deriving DecidableEq

/-- `impl From<Job> for Item` (src/shuttle/providers/jenkins.rs): search on a
lowercase version of the job name. -/
def itemOfJob (job : Job) : Item :=
  let haystack := toLowerStr job.name
  { value := job.url
    label := job.name
    haystack := haystack }

/-- `load_items_from_providers` (src/main.rs 270-283), applied to the list of
the providers' `load()` results in declaration order (rayon's `par_iter`
`collect` is order-preserving): `flatten_ok().try_collect()` concatenates the
successful batches in order and aborts with the first error. -/
def load_items_from_providers {ε : Type} : List (Except ε (List Item)) → Except ε (List Item)
  | [] => .ok []
  | .error e :: _ => .error e
  | .ok xs :: rest =>
    match load_items_from_providers rest with
    | .error e => .error e
    | .ok ys => .ok (xs ++ ys)

/-- Rust `Ord` on `String` is lexicographic on the UTF-8 bytes, which orders
strings exactly like the lexicographic order on their scalar values. -/
def lexLe : List Char → List Char → Bool
  | [], _ => true
  | _ :: _, [] => false
  | a :: as, b :: bs => if a < b then true else if b < a then false else lexLe as bs

/-- `items.sort_by(|lhs, rhs| lhs.label.cmp(&rhs.label))` (src/main.rs 297):
`Vec::sort_by` is a stable sort, so it is `List.insertionSort` with the total
preorder comparing labels. -/
def sort_by_label (items : List Item) : List Item :=
  List.insertionSort (fun lhs rhs : Item => lexLe lhs.label rhs.label = true) items

/-- The `Loaded` variant of `ShuttleState` (src/main.rs 25-29). -/
structure LoadedState where
  all : List Item
  filtered : Option (List Item)
  selected : Nat
deriving DecidableEq

/-- A matcher as used by the session: `Matcher::matches` followed by the
call site's `.cloned()` (src/main.rs 51-55). -/
abbrev MatcherFn := List Char → List Item → List Item

/-- `LoadedState::update_filtered` (src/main.rs 42-62).  Note the source
repositions `selected` by searching `self.filtered` — still the OLD filtered
list at that point — not the freshly computed `filtered_new`. -/
def update_filtered (matcher : MatcherFn) (query : List Char) (s : LoadedState) : LoadedState :=
  let query := toLowerStr query
  let selected_value := s.filtered.bind (fun values => values.get? s.selected)
  let values_to_filter := s.filtered.getD s.all
  let filtered_new := matcher query values_to_filter
  let selected := (selected_value.bind (fun val =>
      (s.filtered.getD []).findIdx? (fun item => item.value == val.value))).getD 0
  { s with selected := selected, filtered := some filtered_new }

/-- `LoadedState::update_filtered_reset` (src/main.rs 32-40). -/
def update_filtered_reset (matcher : MatcherFn) (query : List Char) (s : LoadedState) :
    LoadedState :=
  let s := { s with filtered := none }
  if query.isEmpty then { s with filtered := some s.all }
  else update_filtered matcher query s

/-- The egui input events the handler reacts to (src/main.rs 98-140).
`deleteWord` is `Ctrl+W`; `other` stands for every ignored event. -/
inductive Event where
  | text (t : List Char)
  | backspace
  | deleteWord
  | escape
  | enter
  | arrowUp
  | arrowDown
  | other
deriving DecidableEq

/-- The mutable locals of `handle_events` (src/main.rs 91-95) together with
the query being edited. -/
structure EventFlags where
  query : List Char
  require_update : Bool
  require_reset : Bool
  move_steps : Int
  launch : Bool
deriving DecidableEq

/-- Index of the last `' '` in `l` (Rust `str::rfind(' ')`; the space is
ASCII, so the byte index is the character index). -/
def rfindSpace (l : List Char) : Option Nat :=
  match l.reverse.findIdx? (fun c => c == ' ') with
  | some i => some (l.length - 1 - i)
  | none => none

/-- Rust `str::trim_end`: drop trailing whitespace. -/
def trimEnd (l : List Char) : List Char :=
  (l.reverse.dropWhile Char.isWhitespace).reverse

/-- One iteration of the event loop of `handle_events` (src/main.rs 98-140).
`Escape` calls `frame.quit()`, which only flags the host window and touches
no session state. -/
def processEvent (f : EventFlags) (e : Event) : EventFlags :=
  match e with
  | .text t => { f with query := f.query ++ t, require_update := true }
  | .backspace =>
    if f.query.isEmpty then f
    else { f with query := f.query.dropLast, require_reset := true }
  | .deleteWord =>
    match rfindSpace (trimEnd f.query) with
    | some pos => { f with query := f.query.take (pos + 1), require_reset := true }
    | none => { f with query := [], require_reset := true }
  | .escape => f
  | .enter => { f with launch := true }
  | .arrowUp => { f with move_steps := f.move_steps - 1 }
  | .arrowDown => { f with move_steps := f.move_steps + 1 }
  | .other => f

/-- The whole event loop of `handle_events` over one frame's input batch. -/
def processEvents (events : List Event) (query : List Char) : EventFlags :=
  events.foldl processEvent
    { query := query, require_update := false, require_reset := false
      move_steps := 0, launch := false }

/-- The navigation step of `handle_events` (src/main.rs 156-159): when the
filtered list is non-empty, set
`selected = (selected as i32 + move_steps).rem_euclid(len) as usize`. -/
def applyMove (move_steps : Int) (s : LoadedState) : LoadedState :=
  match s.filtered with
  | some l =>
    if l.isEmpty then s
    else { s with selected := (((s.selected : Int) + move_steps) % (l.length : Int)).toNat }
  | none => s

/-- The session-visible state of `ShuttleApp` in the `Loaded` case: the
query string plus the loaded state behind the mutex. -/
structure AppState where
  query : List Char
  state : LoadedState
deriving DecidableEq

/-- `ShuttleApp::handle_events` on a `Loaded` state (src/main.rs 88-171):
run the event loop, force a reset when `filtered` is `None`, run the filter
update, then apply the accumulated arrow steps by
`(selected as i32 + move_steps).rem_euclid(len)` whenever the filtered list
is non-empty.  Launching reads the state without mutating it. -/
def handle_events (matcher : MatcherFn) (events : List Event) (app : AppState) : AppState :=
  let f := processEvents events app.query
  let s := app.state
  let require_reset := f.require_reset || s.filtered.isNone
  let s :=
    if require_reset then update_filtered_reset matcher f.query s
    else if f.require_update then update_filtered matcher f.query s
    else s
  let s := applyMove f.move_steps s
  { query := f.query, state := s }

/-- The launch read `filtered.get(state.selected)` (src/main.rs 161-166):
the value handed to `xdg-open`, if any. -/
def activationValue (s : LoadedState) : Option (List Char) :=
  s.filtered.bind (fun l => (l.get? s.selected).map (fun item => item.value))

/-- The state published by the loader thread (src/main.rs 254-260). -/
def initialLoaded (items : List Item) : LoadedState :=
  { all := items, filtered := none, selected := 0 }

/-- Folding `handle_events` over successive frames' event batches. -/
def runBatches (matcher : MatcherFn) (batches : List (List Event)) (app : AppState) : AppState :=
  batches.foldl (fun a evs => handle_events matcher evs a) app

/-- Lowercase hex digit of `n < 16`. -/
def hexDigit (n : Nat) : Char :=
  if n < 10 then Char.ofNat (48 + n) else Char.ofNat (87 + n)

/-- Modelled from the spec: serde_json's JSON string escaping, used by the
`ItemCache` serialization (src/main.rs 300-302); the serde machinery itself
is not part of this repository.  serde_json escapes `"` and `\`, writes the
control characters BS, TAB, LF, FF, CR as the short escapes and every other
control character as `\u00XX`, and emits all other characters verbatim. -/
def escapeChar (c : Char) : List Char :=
  if c = '"' then ['\\', '"']
  else if c = '\\' then ['\\', '\\']
  else if c = '\x08' then ['\\', 'b']
  else if c = '\t' then ['\\', 't']
  else if c = '\n' then ['\\', 'n']
  else if c = '\x0c' then ['\\', 'f']
  else if c = '\r' then ['\\', 'r']
  else if c.toNat < 32 then
    ['\\', 'u', '0', '0', hexDigit (c.toNat / 16), hexDigit (c.toNat % 16)]
  else [c]

/-- A JSON string literal: the escaped characters between quote marks. -/
def encodeString (s : List Char) : List Char :=
  '"' :: (s.map escapeChar).flatten ++ ['"']

/-- The characters of the object key `"label":`. -/
def kLabel : List Char := ['"', 'l', 'a', 'b', 'e', 'l', '"', ':']

/-- The characters of the object key `"value":`. -/
def kValue : List Char := ['"', 'v', 'a', 'l', 'u', 'e', '"', ':']

/-- The characters of the object key `"haystack":`. -/
def kHaystack : List Char := ['"', 'h', 'a', 'y', 's', 't', 'a', 'c', 'k', '"', ':']

/-- The characters of the object key `"items":`. -/
def kItems : List Char := ['"', 'i', 't', 'e', 'm', 's', '"', ':']

/-- Modelled from the spec: serde_json's compact serialization of one `Item`
(derived `Serialize`, fields in declaration order `label`, `value`,
`haystack`; src/shuttle/mod.rs 11-21). -/
def encodeItem (it : Item) : List Char :=
  '\x7b' :: (kLabel ++ encodeString it.label ++
    ',' :: (kValue ++ encodeString it.value ++
      ',' :: (kHaystack ++ encodeString it.haystack ++ ['\x7d'])))

/-- A JSON array of items, comma separated. -/
def encodeItems : List Item → List Char
  | [] => ['[', ']']
  | x :: xs => '[' :: (encodeItem x ++ (xs.map (fun i => ',' :: encodeItem i)).flatten ++ [']'])

/-- Modelled from the spec: `serde_json::to_writer` of `ItemCache { items }`
(src/main.rs 300-302, 344-347) — the `store` half of the cache contract of
§6: a single ordered list of label/value/haystack records. -/
def store_cache (items : List Item) : List Char :=
  '\x7b' :: (kItems ++ encodeItems items ++ ['\x7d'])

/-- Numeric value of a hex digit. -/
def hexVal (c : Char) : Option Nat :=
  if 48 ≤ c.toNat ∧ c.toNat ≤ 57 then some (c.toNat - 48)
  else if 97 ≤ c.toNat ∧ c.toNat ≤ 102 then some (c.toNat - 87)
  else if 65 ≤ c.toNat ∧ c.toNat ≤ 70 then some (c.toNat - 55)
  else none

/-- Modelled from the spec: serde_json's parser for the body of a string
literal, up to and including the closing quote; returns the decoded string
and the remaining input. -/
def parseStringBody : List Char → Option (List Char × List Char)
  | [] => none
  | c :: rest =>
    if c = '"' then some ([], rest)
    else if c = '\\' then
      match rest with
      | [] => none
      | e :: r =>
        if e = '"' then (parseStringBody r).map (fun p => ('"' :: p.1, p.2))
        else if e = '\\' then (parseStringBody r).map (fun p => ('\\' :: p.1, p.2))
        else if e = 'b' then (parseStringBody r).map (fun p => ('\x08' :: p.1, p.2))
        else if e = 't' then (parseStringBody r).map (fun p => ('\t' :: p.1, p.2))
        else if e = 'n' then (parseStringBody r).map (fun p => ('\n' :: p.1, p.2))
        else if e = 'f' then (parseStringBody r).map (fun p => ('\x0c' :: p.1, p.2))
        else if e = 'r' then (parseStringBody r).map (fun p => ('\r' :: p.1, p.2))
        else if e = 'u' then
          match r with
          | h1 :: h2 :: h3 :: h4 :: r2 =>
            match hexVal h1, hexVal h2, hexVal h3, hexVal h4 with
            | some a, some b, some c2, some d =>
              (parseStringBody r2).map
                (fun p => (Char.ofNat (((a * 16 + b) * 16 + c2) * 16 + d) :: p.1, p.2))
            | _, _, _, _ => none
          | _ => none
        else none
    else (parseStringBody rest).map (fun p => (c :: p.1, p.2))

/-- A JSON string literal: an opening quote followed by the body. -/
def parseString : List Char → Option (List Char × List Char)
  | c :: rest => if c = '"' then parseStringBody rest else none
  | [] => none

/-- Consume an expected literal prefix of the input. -/
def parseLit (lit input : List Char) : Option (List Char) :=
  if lit.isPrefixOf input then some (input.drop lit.length) else none

/-- Modelled from the spec: the cache deserializer's parser for one `Item`
object, fields in declaration order. -/
def parseItem (input : List Char) : Option (Item × List Char) := do
  let input ← parseLit ('\x7b' :: kLabel) input
  let (label, input) ← parseString input
  let input ← parseLit (',' :: kValue) input
  let (value, input) ← parseString input
  let input ← parseLit (',' :: kHaystack) input
  let (haystack, input) ← parseString input
  let input ← parseLit ['\x7d'] input
  some ({ label := label, value := value, haystack := haystack }, input)

/-- Remaining comma-prefixed elements of an item array, with fuel bounding
the number of elements. -/
def parseMoreItems : Nat → List Char → Option (List Item × List Char)
  | 0, _ => none
  | fuel + 1, input =>
    match input with
    | c :: rest =>
      if c = ',' then do
        let (it, r) ← parseItem rest
        let (its, r2) ← parseMoreItems fuel r
        some (it :: its, r2)
      else some ([], input)
    | [] => some ([], input)

/-- A JSON array of items. -/
def parseItems (input : List Char) : Option (List Item × List Char) :=
  match input with
  | c :: rest =>
    if c = '[' then
      match rest with
      | c2 :: _ =>
        if c2 = ']' then some ([], rest.tail)
        else do
          let (it, rest2) ← parseItem rest
          let (its, rest3) ← parseMoreItems rest2.length rest2
          let rest4 ← parseLit [']'] rest3
          some (it :: its, rest4)
      | [] => none
    else none
  | [] => none

/-- Modelled from the spec: `serde_json::from_reader::<ItemCache>` — parse
the whole snapshot, requiring the input to be exhausted. -/
def parse_cache (input : List Char) : Option (List Item) := do
  let input ← parseLit ('\x7b' :: kItems) input
  let (items, input) ← parseItems input
  let input ← parseLit ['\x7d'] input
  if input.isEmpty then some items else none

/-- `load_items_from_cache` (src/main.rs 285-288): deserialize the snapshot
and return its `items`; a parse failure is an error. -/
def load_items_from_cache (content : List Char) : Except Unit (List Item) :=
  match parse_cache content with
  | some items => .ok items
  | none => .error ()

/-- An error of the load path: either the cache failed to deserialize or a
provider failed. -/
inductive LoadError (ε : Type) where
  | cache
  | provider (e : ε)
deriving DecidableEq

/-- `load_items` (src/main.rs 290-307): if the cache file opens
(`cacheFile = some content`), the result is whatever deserializing it gives
— including its error.  Only when the open fails (`cacheFile = none`) are
the providers run, their concatenation sorted by label and returned (the
write-back of the fresh snapshot is a file-system effect outside this
model). -/
def load_items {ε : Type} (cacheFile : Option (List Char))
    (results : List (Except ε (List Item))) : Except (LoadError ε) (List Item) :=
  match cacheFile with
  | some content =>
    match load_items_from_cache content with
    | .ok items => .ok items
    | .error _ => .error .cache
  | none =>
    match load_items_from_providers results with
    | .error e => .error (.provider e)
    | .ok items => .ok (sort_by_label items)

/-! ## Sample data for the concrete instantiations -/

/-- Sample item with haystack `a`. -/
def itemA : Item := { label := ['a'], value := ['u', 'a'], haystack := ['a'] }

/-- Sample item with haystack `b`. -/
def itemB : Item := { label := ['b'], value := ['u', 'b'], haystack := ['b'] }

/-- Sample item with haystack `a b`. -/
def itemAB : Item := { label := ['c'], value := ['u', 'c'], haystack := ['a', ' ', 'b'] }

/-! ## The substring containment predicate -/

/-- `containsSub` decides contiguous-substring containment. -/
theorem containsSub_iff (hay needle : List Char) :
    containsSub hay needle = true ↔ ∃ pre post, hay = pre ++ needle ++ post := by
  induction hay with
  | nil =>
    simp only [containsSub, Bool.or_false]
    rw [ List.isPrefixOf_iff_prefix]
    constructor
    · intro h
      obtain ⟨s, hs⟩ := h
      rcases List.append_eq_nil.mp hs with ⟨h1, h2⟩
      exact ⟨[], [], by simp [h1]⟩
    · rintro ⟨pre, post, h⟩
      rcases List.append_eq_nil.mp h.symm with ⟨h1, h2⟩
      rcases List.append_eq_nil.mp h1 with ⟨_, h3⟩
      exact ⟨[], by simp [h3]⟩
  | cons c t ih =>
    simp only [containsSub, Bool.or_eq_true, ih]
    rw [ List.isPrefixOf_iff_prefix]
    constructor
    · rintro (⟨s, hs⟩ | ⟨pre, post, ht⟩)
      · exact ⟨[], s, by simp [hs]⟩
      · exact ⟨c :: pre, post, by simp [ht]⟩
    · rintro ⟨pre, post, h⟩
      cases pre with
      | nil => exact Or.inl ⟨post, by simpa using h.symm⟩
      | cons p ps =>
        simp only [List.cons_append, List.cons.injEq] at h
        exact Or.inr ⟨ps, post, h.2⟩

/-- C6: `SimpleMatcher::matches` returns exactly the items whose haystack
contains every whitespace-separated token of the lower-cased query as a
contiguous substring, in their original relative order (a stable filter),
and it returns all items in original order for the empty query. -/
theorem c6_simple_matcher (query : List Char) (items : List Item) :
    (∀ it, it ∈ simple_matches query items ↔
      it ∈ items ∧ ∀ part ∈ splitWhitespace (toLowerStr query),
        ∃ pre post, it.haystack = pre ++ part ++ post)
    ∧ List.Sublist (simple_matches query items) items
    ∧ (query = [] → simple_matches query items = items) := by
  refine ⟨?_, List.filter_sublist _, ?_⟩
  · intro it
    simp only [simple_matches, List.mem_filter, List.all_eq_true, containsSub_iff]
  · rintro rfl
    simp [simple_matches, toLowerStr, splitWhitespace, splitWSAux]

/-- C6 at concrete inputs: the query `B` keeps exactly the items whose
haystack contains `b`, and the empty query keeps everything. -/
theorem c6_simple_matcher_witness :
    itemB ∈ simple_matches ['B'] [itemA, itemB, itemAB]
    ∧ itemA ∉ simple_matches ['B'] [itemA, itemB, itemAB]
    ∧ simple_matches [] [itemA, itemB, itemAB] = [itemA, itemB, itemAB] := by
  have h := c6_simple_matcher ['B'] [itemA, itemB, itemAB]
  have h0 := c6_simple_matcher [] [itemA, itemB, itemAB]
  refine ⟨(h.1 itemB).mpr ⟨by decide, ?_⟩, ?_, h0.2.2 rfl⟩
  · intro part hp
    have hparts : splitWhitespace (toLowerStr ['B']) = [['b']] := by decide
    rw [hparts] at hp
    simp only [List.mem_singleton] at hp
    subst hp
    exact ⟨[], [], rfl⟩
  · intro hmem
    have := ((h.1 itemA).mp hmem).2 ['b'] (by decide)
    obtain ⟨pre, post, hdec⟩ := this
    have : itemA.haystack = ['a'] := rfl
    rw [this] at hdec
    rcases pre with _ | ⟨p, ps⟩
    · simp at hdec
    · simp only [List.cons_append, List.cons.injEq] at hdec
      rcases ps with _ | _
      · simp at hdec
      · simp at hdec

/-! ## C3: haystack normalization at item construction -/

/-- `Char.ofNat` at a scalar value below the surrogate range. -/
theorem toNat_ofNat_of_lt {n : Nat} (h : n < 55296) : (Char.ofNat n).toNat = n := by
  rw [Char.ofNat, dif_pos (Or.inl h)]
  rfl

/-- C3 fails on the code: a GitHub repository's haystack is its `full_name`
verbatim, so it can contain uppercase ASCII letters, `/` and `_`. -/
theorem c3_counterexample :
    ¬ (∀ c ∈ (itemOfRepository
        { full_name := ['F', 'o', 'o', '/', 'B', 'a', 'r', '_', 'z'],
          html_url := ['u'] }).haystack,
        ¬ (65 ≤ c.toNat ∧ c.toNat ≤ 90) ∧ c ≠ '/' ∧ c ≠ '_') := by
  decide

/-- C3 amended: the GitHub conversion copies `full_name` into the haystack
unchanged (no lower-casing, no replacement), while the Jenkins conversion
lower-cases the job name — so a Jenkins haystack has no uppercase ASCII
letter, but `/` and `_` are preserved by both conversions. -/
theorem c3_haystack_amended (repo : Repository) (job : Job) :
    (itemOfRepository repo).haystack = repo.full_name
    ∧ (itemOfJob job).haystack = toLowerStr job.name
    ∧ ∀ c ∈ (itemOfJob job).haystack, ¬ (65 ≤ c.toNat ∧ c.toNat ≤ 90) := by
  refine ⟨rfl, rfl, ?_⟩
  intro c hc
  simp only [itemOfJob, toLowerStr, List.mem_map] at hc
  obtain ⟨c0, _, rfl⟩ := hc
  unfold Char.toLower
  simp only []
  by_cases h : c0.toNat ≥ 65 ∧ c0.toNat ≤ 90
  · rw [if_pos h, toNat_ofNat_of_lt (by omega)]
    omega
  · rw [if_neg h]
    omega

/-- C3 amended, instantiated: a concrete Jenkins job with an uppercase name
gets a lower-cased haystack whose characters are not uppercase ASCII. -/
theorem c3_haystack_amended_witness :
    (itemOfJob { name := ['J', 'o', 'B', '_', 'x'], url := ['u'] }).haystack
      = ['j', 'o', 'b', '_', 'x']
    ∧ ¬ (65 ≤ ('j').toNat ∧ ('j').toNat ≤ 90) := by
  have h := c3_haystack_amended
    { full_name := ['F'], html_url := ['u'] }
    { name := ['J', 'o', 'B', '_', 'x'], url := ['u'] }
  refine ⟨by rw [h.2.1]; decide, h.2.2 'j' (by decide)⟩

/-! ## C10: event handling never touches the loaded item list -/

/-- `update_filtered` leaves `all` unchanged. -/
theorem update_filtered_all (m : MatcherFn) (q : List Char) (s : LoadedState) :
    (update_filtered m q s).all = s.all := rfl

/-- `update_filtered_reset` leaves `all` unchanged. -/
theorem update_filtered_reset_all (m : MatcherFn) (q : List Char) (s : LoadedState) :
    (update_filtered_reset m q s).all = s.all := by
  unfold update_filtered_reset
  split <;> rfl

/-- One event batch leaves `all` unchanged. -/
theorem handle_events_all (m : MatcherFn) (events : List Event) (app : AppState) :
    (handle_events m events app).state.all = app.state.all := by
  unfold handle_events applyMove
  dsimp only
  repeat' split
  all_goals simp [update_filtered_reset_all, update_filtered_all]

/-- C10: processing any event batch — and any sequence of batches — leaves
the `all` field of the loaded state unchanged; only `filtered` and
`selected` are ever mutated after the load hand-off. -/
theorem c10_all_unchanged (m : MatcherFn) (events : List Event)
    (batches : List (List Event)) (app : AppState) :
    (handle_events m events app).state.all = app.state.all
    ∧ (runBatches m batches app).state.all = app.state.all := by
  refine ⟨handle_events_all m events app, ?_⟩
  induction batches generalizing app with
  | nil => rfl
  | cons b bs ih =>
    simpa [runBatches, handle_events_all] using
      (ih (handle_events m b app)).trans (handle_events_all m b app)

/-! ## C8: navigation wraparound -/

/-- An arrow-down batch on a non-empty filtered list only steps the
selection by `(selected + 1).rem_euclid(len)`. -/
theorem handle_events_down (m : MatcherFn) (q : List Char) (s : LoadedState)
    (l : List Item) (hf : s.filtered = some l) (hne : l ≠ []) :
    handle_events m [Event.arrowDown] ⟨q, s⟩
      = ⟨q, { s with selected := (((s.selected : Int) + 1) % (l.length : Int)).toNat }⟩ := by
  unfold handle_events applyMove
  simp [processEvents, processEvent, hf, List.isEmpty_iff, hne]

/-- An arrow-up batch on a non-empty filtered list only steps the
selection by `(selected - 1).rem_euclid(len)`. -/
theorem handle_events_up (m : MatcherFn) (q : List Char) (s : LoadedState)
    (l : List Item) (hf : s.filtered = some l) (hne : l ≠ []) :
    handle_events m [Event.arrowUp] ⟨q, s⟩
      = ⟨q, { s with selected := (((s.selected : Int) + (0 - 1)) % (l.length : Int)).toNat }⟩ := by
  unfold handle_events applyMove
  simp [processEvents, processEvent, hf, List.isEmpty_iff, hne]

/-- C8: on a non-empty filtered list of length `n` with a valid selection,
arrow-down at index `n-1` wraps to `0` and otherwise adds one; arrow-up at
index `0` wraps to `n-1` and otherwise subtracts one; on an empty filtered
list both are no-ops. -/
theorem c8_navigation (m : MatcherFn) (q : List Char) (s : LoadedState)
    (l : List Item) (hf : s.filtered = some l) :
    (l ≠ [] → s.selected < l.length →
      ((handle_events m [Event.arrowDown] ⟨q, s⟩).state.selected
        = if s.selected = l.length - 1 then 0 else s.selected + 1)
      ∧ ((handle_events m [Event.arrowUp] ⟨q, s⟩).state.selected
        = if s.selected = 0 then l.length - 1 else s.selected - 1))
    ∧ (l = [] →
      handle_events m [Event.arrowDown] ⟨q, s⟩ = ⟨q, s⟩
      ∧ handle_events m [Event.arrowUp] ⟨q, s⟩ = ⟨q, s⟩) := by
  constructor
  · intro hne hsel
    have hn : 0 < l.length := List.length_pos.mpr hne
    rw [handle_events_down m q s l hf hne, handle_events_up m q s l hf hne]
    constructor
    · by_cases hlast : s.selected = l.length - 1
      · rw [if_pos hlast]
        have h1 : ((s.selected : Int) + 1) = (l.length : Int) := by omega
        rw [h1, Int.emod_self]
        rfl
      · rw [if_neg hlast]
        have h1 : ((s.selected : Int) + 1) = ((s.selected + 1 : Nat) : Int) := by push_cast; ring
        rw [h1, Int.emod_eq_of_lt (by positivity) (by exact_mod_cast by omega), Int.toNat_natCast]
    · by_cases hzero : s.selected = 0
      · rw [if_pos hzero, hzero]
        have h1 : ((0 : Nat) : Int) + (0 - 1) = ((l.length : Int) - 1) + (l.length : Int) * (-1) := by
          ring
        rw [h1, Int.add_mul_emod_self_left,
          Int.emod_eq_of_lt (by omega) (by omega)]
        show ((l.length : Int) - 1).toNat = l.length - 1
        omega
      · rw [if_neg hzero]
        have h1 : ((s.selected : Int) + (0 - 1)) = ((s.selected - 1 : Nat) : Int) := by
          have : 1 ≤ s.selected := Nat.one_le_iff_ne_zero.mpr hzero
          push_cast [this]
          ring
        rw [h1, Int.emod_eq_of_lt (by positivity) (by exact_mod_cast by omega), Int.toNat_natCast]
  · rintro rfl
    constructor <;>
      · unfold handle_events applyMove
        simp [processEvents, processEvent, hf]

/-- C8 at concrete inputs: wrap from the last index down to `0`, and from
index `0` up to the last index. -/
theorem c8_navigation_witness :
    (handle_events simple_matches [Event.arrowDown]
      ⟨[], { all := [itemA, itemB], filtered := some [itemA, itemB], selected := 1 }⟩).state.selected = 0
    ∧ (handle_events simple_matches [Event.arrowUp]
      ⟨[], { all := [itemA, itemB], filtered := some [itemA, itemB], selected := 0 }⟩).state.selected = 1 := by
  have h1 := (c8_navigation simple_matches []
    { all := [itemA, itemB], filtered := some [itemA, itemB], selected := 1 }
    [itemA, itemB] rfl).1 (by decide) (by decide)
  have h2 := (c8_navigation simple_matches []
    { all := [itemA, itemB], filtered := some [itemA, itemB], selected := 0 }
    [itemA, itemB] rfl).1 (by decide) (by decide)
  exact ⟨by rw [h1.1]; rfl, by rw [h2.2]; rfl⟩

/-! ## C2: the selection invariant -/

/-- After the navigation step, a non-empty filtered list always comes with
an in-range selection: `rem_euclid` lands in `[0, len)`. -/
theorem applyMove_inv (ms : Int) (s : LoadedState) :
    ∀ l, (applyMove ms s).filtered = some l → l ≠ [] → (applyMove ms s).selected < l.length := by
  obtain ⟨all, filtered, selected⟩ := s
  cases filtered with
  | none => intro l hf hne; simp [applyMove] at hf
  | some l' =>
    intro l hf hne
    by_cases he : l'.isEmpty
    · simp only [applyMove, if_pos he] at hf
      simp only [List.isEmpty_iff] at he
      have hl : l' = l := Option.some.inj hf
      subst hl
      exact absurd he hne
    · simp only [applyMove, if_neg he] at hf ⊢
      have hl : l' = l := Option.some.inj hf
      rw [← hl]
      simp only [List.isEmpty_iff] at he
      have h0 : (0 : Int) < l'.length := by
        exact_mod_cast List.length_pos.mpr he
      have h1 := Int.emod_nonneg ((selected : Int) + ms) h0.ne'
      have h2 := Int.emod_lt_of_pos ((selected : Int) + ms) h0
      omega

/-- One event batch always (re-)establishes the selection invariant. -/
theorem handle_events_inv (m : MatcherFn) (evs : List Event) (app : AppState) :
    ∀ l, (handle_events m evs app).state.filtered = some l → l ≠ [] →
      (handle_events m evs app).state.selected < l.length := by
  intro l hf hne
  unfold handle_events at hf ⊢
  exact applyMove_inv _ _ l hf hne

/-- C2: in every state reachable from a fresh load by any batches of query
edits and navigation commands, a non-empty `filtered` list comes with
`selected < len(filtered)`; and the launch read dereferences nothing when
`filtered` is empty. -/
theorem c2_selection_valid (m : MatcherFn) (q0 : List Char) (items : List Item)
    (batches : List (List Event)) :
    (∀ l, (runBatches m batches ⟨q0, initialLoaded items⟩).state.filtered = some l → l ≠ [] →
      (runBatches m batches ⟨q0, initialLoaded items⟩).state.selected < l.length)
    ∧ ∀ s : LoadedState, s.filtered = some [] → activationValue s = none := by
  constructor
  · have key : ∀ (bs : List (List Event)) (app : AppState),
        (∀ l, app.state.filtered = some l → l ≠ [] → app.state.selected < l.length) →
        ∀ l, (runBatches m bs app).state.filtered = some l → l ≠ [] →
          (runBatches m bs app).state.selected < l.length := by
      intro bs
      induction bs with
      | nil => intro app h; exact h
      | cons b bs ih =>
        intro app _
        exact ih (handle_events m b app) (handle_events_inv m b app)
    exact key batches _ (by intro l hf; simp [initialLoaded] at hf)
  · intro s hf
    simp [activationValue, hf]

/-- C2 at concrete inputs: after typing `a` over a fresh load the selection
is in range, and launching on an empty filtered list reads nothing. -/
theorem c2_selection_valid_witness :
    (runBatches simple_matches [[Event.text ['a']]] ⟨[], initialLoaded [itemA]⟩).state.selected < 1
    ∧ activationValue { all := [itemA], filtered := some [], selected := 5 } = none := by
  have h := c2_selection_valid simple_matches [] [itemA] [[Event.text ['a']]]
  exact ⟨h.1 [itemA] rfl (by decide), h.2 _ rfl⟩

/-! ## Order lemmas for the label comparison -/

/-- `lexLe` is reflexive. -/
theorem lexLe_refl (l : List Char) : lexLe l l = true := by
  induction l with
  | nil => rfl
  | cons a as ih => simp [lexLe, ih]

/-- `lexLe` is total. -/
theorem lexLe_total (a b : List Char) : lexLe a b = true ∨ lexLe b a = true := by
  induction a generalizing b with
  | nil => exact Or.inl rfl
  | cons x xs ih =>
    cases b with
    | nil => exact Or.inr rfl
    | cons y ys =>
      rcases lt_trichotomy x y with h | h | h
      · exact Or.inl (by simp [lexLe, h])
      · subst h
        rcases ih ys with h2 | h2
        · exact Or.inl (by simp [lexLe, h2])
        · exact Or.inr (by simp [lexLe, h2])
      · exact Or.inr (by simp [lexLe, h])

/-- `lexLe` is transitive. -/
theorem lexLe_trans : ∀ {a b c : List Char},
    lexLe a b = true → lexLe b c = true → lexLe a c = true := by
  intro a
  induction a with
  | nil => intro b c _ _; rfl
  | cons x xs ih =>
    intro b c h1 h2
    cases b with
    | nil => simp [lexLe] at h1
    | cons y ys =>
      cases c with
      | nil => simp [lexLe] at h2
      | cons z zs =>
        by_cases hxy : x < y
        · by_cases hyz : y < z
          · simp [lexLe, lt_trans hxy hyz]
          · by_cases hzy : z < y
            · simp [lexLe, hyz, hzy] at h2
            · have hyzeq : y = z := le_antisymm (not_lt.mp hzy) (not_lt.mp hyz)
              subst hyzeq
              simp [lexLe, hxy]
        · by_cases hyx : y < x
          · simp [lexLe, hxy, hyx] at h1
          · have hxyeq : x = y := le_antisymm (not_lt.mp hyx) (not_lt.mp hxy)
            subst hxyeq
            simp only [lexLe, if_neg (lt_irrefl x)] at h1 ⊢
            by_cases hyz : x < z
            · simp [hyz]
            · by_cases hzy : z < x
              · simp [lexLe, hyz, hzy] at h2
              · have hxzeq : x = z := le_antisymm (not_lt.mp hzy) (not_lt.mp hyz)
                subst hxzeq
                simp only [lexLe, if_neg (lt_irrefl x)] at h2
                simp only [if_neg (lt_irrefl x)]
                exact ih h1 h2

/-! ## Stability of the stable sort under class-respecting filters -/

/-- Inserting `x` commutes with filtering by a class `p` that is downward
closed under strict order: every element strictly below `x` is outside
`x`'s class. -/
theorem filter_orderedInsert {α : Type} (r : α → α → Prop) [DecidableRel r] (p : α → Bool)
    (x : α) (l : List α) (hx : ∀ y, p x = true → ¬ r x y → p y = false) :
    (List.orderedInsert r x l).filter p
      = if p x then x :: l.filter p else l.filter p := by
  induction l with
  | nil => by_cases hp : p x <;> simp [List.orderedInsert, List.filter_cons, hp]
  | cons b bs ih =>
    simp only [List.orderedInsert]
    by_cases hrb : r x b
    · rw [if_pos hrb]
      by_cases hp : p x <;> simp [List.filter_cons, hp]
    · rw [if_neg hrb]
      by_cases hp : p x
      · have hpb : p b = false := hx b hp hrb
        simp [List.filter_cons, hpb, ih, hp]
      · simp [List.filter_cons, ih, hp]

/-- A stable sort commutes with filtering by an equivalence class of the
sorting preorder: the class's members keep their original relative order. -/
theorem filter_insertionSort {α : Type} (r : α → α → Prop) [DecidableRel r] (p : α → Bool)
    (l : List α) (hx : ∀ x y, p x = true → ¬ r x y → p y = false) :
    (List.insertionSort r l).filter p = l.filter p := by
  induction l with
  | nil => rfl
  | cons a l ih =>
    simp only [List.insertionSort]
    rw [filter_orderedInsert r p a _ (hx a)]
    by_cases hp : p a <;> simp [List.filter_cons, hp, ih]

/-! ## C4: fail-fast aggregation, concatenation order and label sort -/

/-- A failing provider makes the whole aggregation fail. -/
theorem providers_error {ε : Type} (results : List (Except ε (List Item))) (e : ε)
    (he : Except.error e ∈ results) :
    ∃ e', load_items_from_providers results = Except.error e' := by
  induction results with
  | nil => simp at he
  | cons r rs ih =>
    cases r with
    | error e0 => exact ⟨e0, rfl⟩
    | ok xs =>
      simp only [List.mem_cons] at he
      rcases he with h | h
      · exact absurd h (by simp)
      · obtain ⟨e', he'⟩ := ih h
        exact ⟨e', by simp [load_items_from_providers, he']⟩

/-- All providers succeeding yields the concatenation of their batches in
declaration order. -/
theorem providers_ok {ε : Type} (oks : List (List Item)) :
    load_items_from_providers (ε := ε) (oks.map Except.ok) = Except.ok oks.flatten := by
  induction oks with
  | nil => rfl
  | cons xs rest ih => simp [load_items_from_providers, ih]

/-- C4: if any provider errors, the aggregation returns an error — never a
partial list; if all providers succeed, it returns the concatenation of the
batches in provider-declaration order, and the load path then sorts that
concatenation by label with a stable ascending sort (sortedness,
permutation, and per-label stability). -/
theorem c4_aggregator {ε : Type} (results : List (Except ε (List Item)))
    (l : List Item) (L : List Char) :
    (∀ e : ε, Except.error e ∈ results →
      ∃ e', load_items_from_providers results = Except.error e')
    ∧ (∀ oks : List (List Item), results = oks.map Except.ok →
        load_items_from_providers results = Except.ok oks.flatten
        ∧ load_items none results = Except.ok (sort_by_label oks.flatten))
    ∧ List.Pairwise (fun a b : Item => lexLe a.label b.label = true) (sort_by_label l)
    ∧ List.Perm (sort_by_label l) l
    ∧ (sort_by_label l).filter (fun it => it.label == L)
        = l.filter (fun it => it.label == L) := by
  refine ⟨fun e he => providers_error results e he, ?_, ?_, ?_, ?_⟩
  · rintro oks rfl
    refine ⟨providers_ok oks, ?_⟩
    simp [load_items, providers_ok]
  · haveI : IsTotal Item (fun lhs rhs : Item => lexLe lhs.label rhs.label = true) :=
      ⟨fun a b => lexLe_total a.label b.label⟩
    haveI : IsTrans Item (fun lhs rhs : Item => lexLe lhs.label rhs.label = true) :=
      ⟨fun _ _ _ h1 h2 => lexLe_trans h1 h2⟩
    exact List.sorted_insertionSort _ l
  · exact List.perm_insertionSort _ l
  · apply filter_insertionSort
    intro x y hpx hr
    cases hyL : y.label == L
    · rfl
    · have hx : x.label = L := by simpa using hpx
      have hy : y.label = L := by simpa using hyL
      exact absurd (hx ▸ hy ▸ lexLe_refl L) hr

/-- C4 at concrete inputs: one failing provider aborts the aggregation; two
successful providers yield their batches concatenated in order, and the
fresh load path sorts them by label. -/
theorem c4_aggregator_witness :
    load_items_from_providers [Except.ok (ε := Unit) [itemB], Except.error ()] = Except.error ()
    ∧ load_items_from_providers [Except.ok (ε := Unit) [itemB], Except.ok [itemA]]
        = Except.ok [itemB, itemA]
    ∧ load_items (ε := Unit) none [Except.ok [itemB], Except.ok [itemA]]
        = Except.ok (sort_by_label [itemB, itemA])
    ∧ sort_by_label [itemB, itemA] = [itemA, itemB] := by
  obtain ⟨e', he'⟩ := (c4_aggregator (ε := Unit) [Except.ok [itemB], Except.error ()] [] []).1 ()
    (by simp)
  have h2 := (c4_aggregator (ε := Unit) [Except.ok [itemB], Except.ok [itemA]] [] []).2.1
    [[itemB], [itemA]] rfl
  cases e'
  exact ⟨he', by simpa using h2.1, by simpa using h2.2, by decide⟩

/-! ## C7: the fuzzy matcher -/

/-- Every scored pair produced for an item records that item's score. -/
theorem mem_score_pairs (fm : List Char → List Char → Option Int) (q : List Char)
    (items : List Item) (p : Int × Item)
    (hp : p ∈ items.filterMap
      (fun item => (fm item.haystack q).map (fun score => (score, item)))) :
    fm p.2.haystack q = some p.1 := by
  rw [List.mem_filterMap] at hp
  obtain ⟨a, _, hga⟩ := hp
  cases hfa : fm a.haystack q with
  | none => rw [hfa] at hga; simp at hga
  | some sc =>
    rw [hfa] at hga
    simp only [Option.map_some'] at hga
    obtain rfl := Option.some.inj hga
    exact hfa

/-- Filtering the scored pairs down to one score class and dropping the
scores is the same as filtering the items by that score. -/
theorem score_pairs_filter (fm : List Char → List Char → Option Int) (q : List Char)
    (s : Int) (items : List Item) :
    ((items.filterMap (fun item => (fm item.haystack q).map (fun score => (score, item)))).filter
        (fun p : Int × Item => fm p.2.haystack q == some s)).map Prod.snd
      = items.filter (fun it => fm it.haystack q == some s) := by
  induction items with
  | nil => rfl
  | cons a l ih =>
    cases hfa : fm a.haystack q with
    | none => simp [List.filterMap_cons, hfa, List.filter_cons, ih]
    | some sc =>
      by_cases hsc : sc = s
      · subst hsc
        simp [List.filterMap_cons, hfa, List.filter_cons, ih]
      · simp [List.filterMap_cons, hfa, List.filter_cons, ih, hsc]

/-- C7: the fuzzy matcher returns only items whose score is defined for the
query, in non-increasing score order, and items of equal score keep their
original relative order (they appear exactly as in the input). -/
theorem c7_fuzzy_matcher (fm : List Char → List Char → Option Int) (q : List Char)
    (items : List Item) :
    (∀ it ∈ fuzzy_matches fm q items, (fm it.haystack q).isSome)
    ∧ List.Pairwise (fun a b : Item => ∀ sa sb : Int,
        fm a.haystack q = some sa → fm b.haystack q = some sb → sb ≤ sa)
        (fuzzy_matches fm q items)
    ∧ ∀ s : Int, (fuzzy_matches fm q items).filter (fun it => fm it.haystack q == some s)
        = items.filter (fun it => fm it.haystack q == some s) := by
  haveI : IsTotal (Int × Item) (fun a b : Int × Item => -a.1 ≤ -b.1) :=
    ⟨fun a b => le_total (-a.1) (-b.1)⟩
  haveI : IsTrans (Int × Item) (fun a b : Int × Item => -a.1 ≤ -b.1) :=
    ⟨fun _ _ _ h1 h2 => le_trans h1 h2⟩
  have hmem : ∀ p : Int × Item,
      p ∈ List.insertionSort (fun a b : Int × Item => -a.1 ≤ -b.1)
        (items.filterMap (fun item => (fm item.haystack q).map (fun score => (score, item)))) →
      fm p.2.haystack q = some p.1 := by
    intro p hp
    exact mem_score_pairs fm q items p ((List.perm_insertionSort _ _).mem_iff.mp hp)
  refine ⟨?_, ?_, ?_⟩
  · intro it hit
    simp only [fuzzy_matches, List.mem_map] at hit
    obtain ⟨p, hp, rfl⟩ := hit
    rw [hmem p hp]
    rfl
  · have hs := List.sorted_insertionSort (fun a b : Int × Item => -a.1 ≤ -b.1)
      (items.filterMap (fun item => (fm item.haystack q).map (fun score => (score, item))))
    simp only [fuzzy_matches]
    rw [List.pairwise_map]
    refine List.Pairwise.imp_of_mem ?_ hs
    intro p p' hp hp' hr sa sb hsa hsb
    rw [hmem p hp] at hsa
    rw [hmem p' hp'] at hsb
    obtain rfl := Option.some.inj hsa
    obtain rfl := Option.some.inj hsb
    omega
  · intro s
    simp only [fuzzy_matches]
    rw [List.filter_map]
    have hcong1 : ∀ (ps : List (Int × Item)), (∀ p ∈ ps, fm p.2.haystack q = some p.1) →
        ps.filter ((fun it => fm it.haystack q == some s) ∘ Prod.snd)
          = ps.filter (fun p : Int × Item => p.1 == s) := by
      intro ps hps
      apply List.filter_congr
      intro p hp
      simp [Function.comp, hps p hp]
    rw [hcong1 _ hmem]
    rw [filter_insertionSort _ _ _ ?hclass]
    case hclass =>
      intro x y hpx hr
      simp only [beq_iff_eq] at hpx ⊢
      simp only [not_le, neg_lt_neg_iff] at hr
      simp only [Bool.eq_false_iff, ne_eq, beq_iff_eq]
      omega
    rw [← hcong1 _ (fun p hp => mem_score_pairs fm q items p hp)]
    exact score_pairs_filter fm q s items

/-- C7 at concrete inputs: with a scorer giving `b` a higher score than `a`
and nothing to `a b`, the matcher returns `b` before `a` and drops the
unscored item. -/
theorem c7_fuzzy_matcher_witness :
    (fuzzy_matches
        (fun h _ => if h = ['a'] then some 1 else if h = ['b'] then some 5 else none)
        ['q'] [itemA, itemB, itemAB]) = [itemB, itemA]
    ∧ ((fun h _ => if h = ['a'] then some 1 else if h = ['b'] then some 5 else none)
        (itemB.haystack) ['q'] : Option Int).isSome := by
  refine ⟨by decide, ?_⟩
  have h := (c7_fuzzy_matcher
    (fun h _ => if h = ['a'] then some 1 else if h = ['b'] then some 5 else none)
    ['q'] [itemA, itemB, itemAB]).1
  exact h itemB (by decide)

/-! ## C1: selection preservation is broken in the code -/

/-- C1 fails on the code.  Incremental path: with filtered `[itemA, itemB]`
and `selected = 1`, narrowing to `[itemB]` must move the selection to the
value's position `0` in the new list, but `update_filtered` searches the
still-old `self.filtered` and leaves `selected = 1` — out of range for the
new list.  Reset path: with filtered `[itemB]`, `selected = 0`, clearing
the query widens the list to `[itemA, itemB]` where the selected value sits
at position `1`, but the reset leaves `selected = 0`. -/
theorem c1_failing_eval :
    (update_filtered simple_matches ['b']
        { all := [itemA, itemB], filtered := some [itemA, itemB], selected := 1 })
      = { all := [itemA, itemB], filtered := some [itemB], selected := 1 }
    ∧ List.findIdx? (fun item => item.value == itemB.value) [itemB] = some 0
    ∧ (update_filtered_reset simple_matches []
        { all := [itemA, itemB], filtered := some [itemB], selected := 0 })
      = { all := [itemA, itemB], filtered := some [itemA, itemB], selected := 0 }
    ∧ List.findIdx? (fun item => item.value == itemB.value) [itemA, itemB] = some 1 := by
  refine ⟨by decide, by decide, by decide, by decide⟩

/-! ## C5: corrupt cache snapshots are not recovered from -/

/-- C5 fails on the code: an existing but corrupt snapshot (`x`) makes
`load_items` return the cache error even though every provider succeeds —
no fallback aggregation happens. -/
theorem c5_counterexample :
    load_items (some ['x']) [Except.ok (ε := Unit) [itemA]] = Except.error LoadError.cache
    ∧ load_items_from_providers [Except.ok (ε := Unit) [itemA]] = Except.ok [itemA] :=
  ⟨rfl, rfl⟩

/-- C5 amended: the fallback to a fresh aggregation happens only when the
cache file cannot be opened; a snapshot that opens but fails to parse makes
`load_items` fail even when all providers succeed; with no cache file the
load succeeds with the sorted aggregation exactly when all providers
succeed, and errors when one fails. -/
theorem c5_cache_amended {ε : Type} (content : List Char)
    (results : List (Except ε (List Item))) :
    (load_items_from_cache content = Except.error () →
      load_items (some content) results = Except.error LoadError.cache)
    ∧ (∀ items, load_items_from_cache content = Except.ok items →
      load_items (some content) results = Except.ok items)
    ∧ (∀ oks : List (List Item), results = oks.map Except.ok →
      load_items none results = Except.ok (sort_by_label oks.flatten))
    ∧ (∀ e : ε, Except.error e ∈ results →
      ∃ e', load_items none results = Except.error (LoadError.provider e')) := by
  refine ⟨?_, ?_, ?_, ?_⟩
  · intro h
    simp [load_items, h]
  · intro items h
    simp [load_items, h]
  · rintro oks rfl
    simp [load_items, providers_ok]
  · intro e he
    obtain ⟨e', he'⟩ := providers_error results e he
    exact ⟨e', by simp [load_items, he']⟩

/-- C5 amended at concrete inputs: a corrupt snapshot fails the load though
the (single) provider succeeds; without a snapshot the same provider list
loads fine. -/
theorem c5_cache_amended_witness :
    load_items (some ['x']) [Except.ok (ε := Unit) [itemB]] = Except.error LoadError.cache
    ∧ load_items (ε := Unit) none [Except.ok [itemB]] = Except.ok (sort_by_label [itemB]) := by
  have h := c5_cache_amended (ε := Unit) ['x'] [Except.ok [itemB]]
  exact ⟨h.1 rfl, by simpa using h.2.2.1 [[itemB]] rfl⟩

/-! ## C9: cache round-trip -/

/-- Hex digits decode back to their value. -/
theorem hexVal_hexDigit : ∀ n : Nat, n < 16 → hexVal (hexDigit n) = some n := by decide

/-- Decoding a JSON string body inverts the escaping, leaving the rest of
the input untouched. -/
theorem parseStringBody_roundtrip (s rest : List Char) :
    parseStringBody ((s.map escapeChar).flatten ++ '"' :: rest) = some (s, rest) := by
  induction s with
  | nil =>
    simp only [List.map_nil, List.flatten_nil, List.nil_append]
    rw [parseStringBody.eq_def]
    simp
  | cons c s ih =>
    simp only [List.map_cons, List.flatten_cons, List.append_assoc]
    by_cases h1 : c = '"'
    · subst h1
      simp only [escapeChar, if_pos rfl, List.cons_append, List.nil_append]
      rw [parseStringBody.eq_def]
      simp [ih]
    · by_cases h2 : c = '\\'
      · subst h2
        simp only [escapeChar, reduceIte, List.cons_append, List.nil_append]
        rw [parseStringBody.eq_def]
        simp [ih]
      · by_cases h3 : c = '\x08'
        · subst h3
          simp only [escapeChar, reduceIte, List.cons_append, List.nil_append]
          rw [parseStringBody.eq_def]
          simp [ih]
        · by_cases h4 : c = '\t'
          · subst h4
            simp only [escapeChar, reduceIte, List.cons_append, List.nil_append]
            rw [parseStringBody.eq_def]
            simp [ih]
          · by_cases h5 : c = '\n'
            · subst h5
              simp only [escapeChar, reduceIte, List.cons_append, List.nil_append]
              rw [parseStringBody.eq_def]
              simp [ih]
            · by_cases h6 : c = '\x0c'
              · subst h6
                simp only [escapeChar, reduceIte, List.cons_append, List.nil_append]
                rw [parseStringBody.eq_def]
                simp [ih]
              · by_cases h7 : c = '\r'
                · subst h7
                  simp only [escapeChar, reduceIte, List.cons_append, List.nil_append]
                  rw [parseStringBody.eq_def]
                  simp [ih]
                · by_cases h8 : c.toNat < 32
                  · have hd1 : hexVal (hexDigit (c.toNat / 16)) = some (c.toNat / 16) :=
                      hexVal_hexDigit _ (by omega)
                    have hd2 : hexVal (hexDigit (c.toNat % 16)) = some (c.toNat % 16) :=
                      hexVal_hexDigit _ (by omega)
                    simp only [escapeChar, if_neg h1, if_neg h2, if_neg h3, if_neg h4,
                      if_neg h5, if_neg h6, if_neg h7, if_pos h8, List.cons_append,
                      List.nil_append]
                    have h0 : hexVal '0' = some 0 := by decide
                    rw [parseStringBody.eq_def]
                    simp [h0, hd1, hd2, ih, Nat.div_add_mod']
                  · simp only [escapeChar, if_neg h1, if_neg h2, if_neg h3, if_neg h4,
                      if_neg h5, if_neg h6, if_neg h7, if_neg h8, List.cons_append,
                      List.nil_append]
                    rw [parseStringBody.eq_def]
                    simp [h1, h2, ih]

/-- Decoding a JSON string literal inverts `encodeString`. -/
theorem parseString_roundtrip (s rest : List Char) :
    parseString (encodeString s ++ rest) = some (s, rest) := by
  simp only [encodeString, List.cons_append, List.append_assoc, List.singleton_append]
  simp [parseString, parseStringBody_roundtrip]

/-- Consuming a literal prefix succeeds and leaves the rest. -/
theorem parseLit_self (lit rest : List Char) : parseLit lit (lit ++ rest) = some rest := by
  rw [parseLit, if_pos ( List.isPrefixOf_iff_prefix.mpr ⟨rest, rfl⟩), List.drop_left]

/-- Decoding one item object inverts `encodeItem`. -/
theorem parseItem_roundtrip (it : Item) (rest : List Char) :
    parseItem (encodeItem it ++ rest) = some (it, rest) := by
  have pl1 : ∀ r : List Char, parseLit ('\x7b' :: kLabel) ('\x7b' :: (kLabel ++ r)) = some r :=
    fun r => by rw [← List.cons_append]; exact parseLit_self _ r
  have pl2 : ∀ r : List Char, parseLit (',' :: kValue) (',' :: (kValue ++ r)) = some r :=
    fun r => by rw [← List.cons_append]; exact parseLit_self _ r
  have pl3 : ∀ r : List Char, parseLit (',' :: kHaystack) (',' :: (kHaystack ++ r)) = some r :=
    fun r => by rw [← List.cons_append]; exact parseLit_self _ r
  have pl4 : ∀ r : List Char, parseLit ['\x7d'] ('\x7d' :: r) = some r :=
    fun r => by rw [← List.singleton_append]; exact parseLit_self _ r
  simp [parseItem, encodeItem, List.cons_append, List.append_assoc,
    pl1, pl2, pl3, pl4, parseString_roundtrip]

/-- Items of an encoded array are at least as long as the item list. -/
theorem length_flatten_encoded (xs : List Item) :
    xs.length ≤ ((xs.map (fun i => ',' :: encodeItem i)).flatten).length := by
  induction xs with
  | nil => simp
  | cons x xs ih =>
    simp only [List.map_cons, List.flatten_cons, List.length_append, List.length_cons]
    omega

/-- Decoding the comma-separated tail of an item array inverts the
encoding, for any fuel larger than the number of elements. -/
theorem parseMoreItems_roundtrip (xs : List Item) :
    ∀ (fuel : Nat) (rest : List Char), xs.length < fuel →
    parseMoreItems fuel ((xs.map (fun i => ',' :: encodeItem i)).flatten ++ ']' :: rest)
      = some (xs, ']' :: rest) := by
  induction xs with
  | nil =>
    intro fuel rest hf
    cases fuel with
    | zero => omega
    | succ fuel => simp [parseMoreItems]
  | cons x xs ih =>
    intro fuel rest hf
    cases fuel with
    | zero => omega
    | succ fuel =>
      simp only [List.map_cons, List.flatten_cons, List.cons_append, List.append_assoc]
      simp [parseMoreItems, parseItem_roundtrip, ih fuel rest (by simpa using Nat.lt_of_succ_lt_succ hf)]

/-- Decoding an item array inverts `encodeItems`. -/
theorem parseItems_roundtrip (items : List Item) (rest : List Char) :
    parseItems (encodeItems items ++ rest) = some (items, rest) := by
  cases items with
  | nil => rfl
  | cons x xs =>
    simp only [encodeItems, List.cons_append, List.append_assoc, List.singleton_append,
      List.nil_append]
    have hx : encodeItem x ++ ((xs.map (fun i => ',' :: encodeItem i)).flatten ++ (']' :: rest))
        = '\x7b' :: ((kLabel ++ encodeString x.label ++
            ',' :: (kValue ++ encodeString x.value ++
              ',' :: (kHaystack ++ encodeString x.haystack ++ ['\x7d'])))
          ++ ((xs.map (fun i => ',' :: encodeItem i)).flatten ++ (']' :: rest))) := by
      simp [encodeItem]
    rw [hx]
    rw [parseItems.eq_def]
    simp only [reduceIte]
    rw [← hx]
    have h4 : ((xs.map (fun i => ',' :: encodeItem i)).flatten).length
        = (List.map (List.length ∘ fun i => ',' :: encodeItem i) xs).sum := by
      rw [List.length_flatten, List.map_map]
    have h3 := length_flatten_encoded xs
    have hfuel2 : xs.length
        < (List.map (List.length ∘ fun i => ',' :: encodeItem i) xs).sum + (rest.length + 1) := by
      omega
    simp [parseItem_roundtrip, parseMoreItems_roundtrip xs _ rest hfuel2,
      show parseLit [']'] (']' :: rest) = some rest from by
        rw [← List.singleton_append]; exact parseLit_self _ rest]

/-- Decoding a whole snapshot inverts `store_cache`. -/
theorem parse_cache_roundtrip (items : List Item) :
    parse_cache (store_cache items) = some items := by
  have h1 : store_cache items = ('\x7b' :: kItems) ++ (encodeItems items ++ ['\x7d']) := by
    simp [store_cache]
  rw [parse_cache, h1, parseLit_self]
  simp [parseItems_roundtrip items ['\x7d'],
    show parseLit ['\x7d'] ['\x7d'] = some [] from by
      rw [show ['\x7d'] = ['\x7d'] ++ ([] : List Char) from by simp]
      exact parseLit_self _ []]

/-- C9: storing any item list through the cache and loading it back yields
the same sequence of `(label, value, haystack)` records, in order. -/
theorem c9_cache_roundtrip (items : List Item) :
    load_items_from_cache (store_cache items) = Except.ok items := by
  simp [load_items_from_cache, parse_cache_roundtrip]

end Shuttle
